import Mathlib

/-!
Verification of the Frequency2IOP pipeline (temperature compensation,
adaptive sliding-window minimum extraction, piecewise-linear calibration).
Numbers are modelled by rationals; the adaptive loop, which the source
writes as `while True`, is modelled with explicit fuel so that divergence
is observable as a `none` result.
-/

set_option maxRecDepth 4000

namespace Frequency2IOP

/-- Embeds `apply_temperature_compensation`: adds the constant correction
`(ref_temp - temp_celsius) * temp_coeff_per_deg` to every sample. -/
def apply_temperature_compensation (freq_values : List ℚ)
    (temp_celsius ref_temp temp_coeff_per_deg : ℚ) : List ℚ :=
  let correction := (ref_temp - temp_celsius) * temp_coeff_per_deg
  freq_values.map (fun x => x + correction)

/-- Insert a value into an ascending-sorted list. -/
def insertSorted (x : ℚ) : List ℚ → List ℚ
  | [] => [x]
  | y :: ys => if x ≤ y then x :: y :: ys else y :: insertSorted x ys

/-- Ascending sort; models the sorting performed inside `np.percentile`
and the value selection of `np.partition`. -/
def sortAsc (l : List ℚ) : List ℚ := l.foldr insertSorted []

/-- Embeds `np.percentile(w, q)` with the default linear interpolation:
`pos = q/100 * (m-1)`, result `a[⌊pos⌋] + frac * (a[⌊pos⌋+1] - a[⌊pos⌋])`. -/
def percentile (w : List ℚ) (q : ℚ) : ℚ :=
  let s := sortAsc w
  let m := s.length
  let pos := q / 100 * ((m : ℚ) - 1)
  let i := (Int.floor pos).toNat
  let lo := s.getD i 0
  let hi := s.getD (i + 1) lo
  lo + (pos - (i : ℚ)) * (hi - lo)

/-- Mean of the `k` smallest values of `w`; embeds
`float(np.mean(np.partition(w, k - 1)[:k]))`. -/
def meanBottom (w : List ℚ) (k : ℕ) : ℚ :=
  let s := (sortAsc w).take k
  s.sum / (s.length : ℚ)

/-- The window `values[start_index:end]` with `end = min(n, start_index + wl)`. -/
def windowAt (values : List ℚ) (start wl : ℕ) : List ℚ :=
  (values.drop start).take (min values.length (start + wl) - start)

/-- Embeds `np.count_nonzero(window <= np.percentile(window, lp))`. -/
def countVeryLow (w : List ℚ) (lp : ℚ) : ℕ :=
  w.countP (fun x => decide (x ≤ percentile w lp))

/-- Embeds the window-growth computation of `adaptive_min_average`:
`new = int(np.ceil(wl * gf)); if new == wl: new += 1`. -/
def nextLen (gf : ℚ) (wl : ℕ) : ℕ :=
  let c := (Int.ceil ((wl : ℚ) * gf)).toNat
  if c = wl then wl + 1 else c

/-- Embeds the fallback of `adaptive_min_average`: average the
`min(bottom_n, len(window))` smallest elements, `None` if that is empty. -/
def fallbackMean (w : List ℚ) (bottom_n : ℕ) : Option ℚ :=
  if min bottom_n w.length = 0 then none
  else some (meanBottom w (min bottom_n w.length))

/-- One iteration of the `while True` loop of `adaptive_min_average`
(lines 135-165 of the source): either the loop returns (`Sum.inl`, with
`none` standing for Python `None`) or continues with a new window length. -/
def loopStep (values : List ℚ) (start bottom_n : ℕ) (lp gf : ℚ)
    (mw wl : ℕ) : Sum (Option ℚ) ℕ :=
  if min values.length (start + wl) ≤ start then Sum.inl none
  else if bottom_n ≤ countVeryLow (windowAt values start wl) lp then
    Sum.inl (some (meanBottom (windowAt values start wl) bottom_n))
  else if mw < nextLen gf wl ∧ values.length ≤ start + wl then
    Sum.inl (fallbackMean (windowAt values start wl) bottom_n)
  else if values.length ≤ start + min (nextLen gf wl) mw ∧
      min values.length (start + wl) = values.length then
    Sum.inl (fallbackMean (windowAt values start wl) bottom_n)
  else Sum.inr (min (nextLen gf wl) mw)

/-- Runs the loop of `adaptive_min_average` for at most `fuel` iterations,
recording the window length used at each entered iteration.  The second
component is `none` when the fuel runs out (in particular for an infinite
loop it is `none` for every fuel), otherwise `some r` where `r` is the
Python return value (`none` = Python `None`). -/
def adaptiveRun (values : List ℚ) (start bottom_n : ℕ) (lp gf : ℚ)
    (mw : ℕ) : ℕ → ℕ → List ℕ × Option (Option ℚ)
  | 0, _ => ([], none)
  | fuel + 1, wl =>
    match loopStep values start bottom_n lp gf mw wl with
    | Sum.inl r => ([wl], some r)
    | Sum.inr wl2 =>
      let rest := adaptiveRun values start bottom_n lp gf mw fuel wl2
      (wl :: rest.1, rest.2)

/-- The sequence of window lengths used by the loop of
`adaptive_min_average`, starting from window length `wl`. -/
def wlTrace (values : List ℚ) (start bottom_n : ℕ) (lp gf : ℚ)
    (mw fuel wl : ℕ) : List ℕ :=
  (adaptiveRun values start bottom_n lp gf mw fuel wl).1

/-- Embeds `adaptive_min_average` (fuel-instrumented): `max_window = none`
models the Python default `None`, replaced by `4 * base_window`. -/
def adaptive_min_average (values : List ℚ) (start_index base_window bottom_n : ℕ)
    (lp gf : ℚ) (max_window : Option ℕ) (fuel : ℕ) : Option (Option ℚ) :=
  if values.length ≤ start_index then some none
  else
    (adaptiveRun values start_index bottom_n lp gf
      (max_window.getD (4 * base_window)) fuel base_window).2

/-- The loop of `build_adaptive_series`: scan `k` consecutive start indices
beginning at `i`, collecting non-`None` results; `none` when some scan
runs out of fuel. -/
def buildFrom (values : List ℚ) (bw bottom_n : ℕ) (lp gf : ℚ)
    (mw : Option ℕ) (fuel : ℕ) : ℕ → ℕ → Option (List ℚ)
  | _, 0 => some []
  | i, k + 1 =>
    match adaptive_min_average values i bw bottom_n lp gf mw fuel,
        buildFrom values bw bottom_n lp gf mw fuel (i + 1) k with
    | none, _ => none
    | some none, r => r
    | some (some v), some rest => some (v :: rest)
    | some (some _), none => none

/-- Embeds `build_adaptive_series`: start indices run from `0` to
`max(0, n - base_window)` inclusive. -/
def build_adaptive_series (values : List ℚ) (bw bottom_n : ℕ) (lp gf : ℚ)
    (mw : Option ℕ) (fuel : ℕ) : Option (List ℚ) :=
  buildFrom values bw bottom_n lp gf mw fuel 0 ((values.length - bw) + 1)

/-- A calibration segment as in the source's segment dictionaries. -/
structure Seg where
  f_low : ℚ
  f_high : ℚ
  p_at_low : ℚ
  p_at_high : ℚ
  deriving DecidableEq, Repr

/-- Result of `calibrate_frequency_to_pressure`: a pressure value, the
`np.nan` fallback of line 285, or the `IndexError` that `segments[-1]`
raises on an empty list. -/
inductive CalibResult where
  | val (p : ℚ)
  | nan
  | indexError
  deriving DecidableEq, Repr

/-- Linear interpolation inside a segment (lines 255-261):
degenerate segments return `p_at_low`. -/
def interpSeg (s : Seg) (freq : ℚ) : ℚ :=
  if s.f_high = s.f_low then s.p_at_low
  else s.p_at_low + (freq - s.f_low) / (s.f_high - s.f_low) * (s.p_at_high - s.p_at_low)

/-- The `for seg in segments` scan: value of the first segment containing
`freq`, if any. -/
def findSegVal (freq : ℚ) : List Seg → Option ℚ
  | [] => none
  | s :: rest =>
    if s.f_low ≤ freq ∧ freq ≤ s.f_high then some (interpSeg s freq)
    else findSegVal freq rest

/-- The extrapolation slope of a segment (lines 271 and 281):
`0` for a degenerate segment. -/
def slopeOf (s : Seg) : ℚ :=
  if s.f_high = s.f_low then 0
  else (s.p_at_high - s.p_at_low) / (s.f_high - s.f_low)

/-- The `segments[-1]` access on a list known non-empty. -/
def lastSeg (s0 : Seg) (rest : List Seg) : Seg :=
  (s0 :: rest).getLast (List.cons_ne_nil s0 rest)

/-- Embeds `calibrate_frequency_to_pressure`: scan for a containing
segment; otherwise access `segments[-1]` (IndexError on empty), then
extrapolate above the last segment, below the first segment, or fall
through to `np.nan`. -/
def calibrate_frequency_to_pressure (freq : ℚ) (segments : List Seg) : CalibResult :=
  match findSegVal freq segments with
  | some p => CalibResult.val p
  | none =>
    match segments with
    | [] => CalibResult.indexError
    | s0 :: rest =>
      if (lastSeg s0 rest).f_high < freq then
        CalibResult.val ((lastSeg s0 rest).p_at_high +
          (freq - (lastSeg s0 rest).f_high) * slopeOf (lastSeg s0 rest))
      else if freq < s0.f_low then
        CalibResult.val (s0.p_at_low + (freq - s0.f_low) * slopeOf s0)
      else CalibResult.nan

/-! ### Temperature compensation (C8) -/

/-- C8: every element of the output of `apply_temperature_compensation`
equals the input element plus `(ref_temp - temp) * coeff` exactly, the
output has the input's length, and measured = reference temperature gives
the identity transform. -/
theorem c8_temperature_compensation (xs : List ℚ) (temp ref coeff : ℚ) :
    (apply_temperature_compensation xs temp ref coeff).length = xs.length ∧
    (∀ i, i < xs.length →
      (apply_temperature_compensation xs temp ref coeff).getD i 0 =
        xs.getD i 0 + (ref - temp) * coeff) ∧
    (temp = ref → apply_temperature_compensation xs temp ref coeff = xs) := by
  refine ⟨by simp [apply_temperature_compensation], ?_, ?_⟩
  · intro i hi
    induction xs generalizing i with
    | nil => simp at hi
    | cons a t ih =>
      cases i with
      | zero => simp [apply_temperature_compensation]
      | succ j =>
        have hj : j < t.length := by simpa using hi
        simpa [apply_temperature_compensation] using ih j hj
  · intro h
    subst h
    simp [apply_temperature_compensation]

/-- Witness for C8 at a concrete input. -/
theorem c8_temperature_compensation_witness :
    (apply_temperature_compensation [1, 2] 3 3 5).getD 0 0 =
      ([(1 : ℚ), 2]).getD 0 0 + (3 - 3) * 5 ∧
    apply_temperature_compensation [1, 2] 3 3 5 = [1, 2] :=
  ⟨(c8_temperature_compensation [1, 2] 3 3 5).2.1 0 (by decide),
   (c8_temperature_compensation [1, 2] 3 3 5).2.2 rfl⟩

/-! ### Calibration with an empty segment table (C2) -/

/-- C2 counterexample: on an empty segments list the code evaluates
`segments[-1]`, which raises `IndexError` — a fatal abort — instead of
producing the `np.nan` "no value" result. -/
theorem c2_empty_segments_counterexample :
    calibrate_frequency_to_pressure 500 [] = CalibResult.indexError ∧
    calibrate_frequency_to_pressure 500 [] ≠ CalibResult.nan := by
  with_unfolding_all decide

/-- C2 amended: with an empty segments list,
`calibrate_frequency_to_pressure` raises `IndexError` at the
`segments[-1]` access, for every frequency. -/
theorem c2_empty_segments_raises (freq : ℚ) :
    calibrate_frequency_to_pressure freq [] = CalibResult.indexError := rfl

/-! ### Enough very-low points stop the scan (C4) -/

/-- C4: whenever the count of window elements at or below the
`low_percentile`-th percentile reaches `bottom_n`, the scan loop returns
the mean of the `bottom_n` smallest window values at that iteration; in
the concrete scenario `values = [10,1,2,9,8,0,3]`, `start = 0`,
`base_window = 3`, `bottom_n = 2`, `low_percentile = 50` the result
is `3/2`. -/
theorem c4_enough_low_points_returns_mean :
    (∀ (values : List ℚ) (start bottom_n : ℕ) (lp gf : ℚ) (mw wl fuel : ℕ),
        start < values.length → 1 ≤ wl →
        bottom_n ≤ countVeryLow (windowAt values start wl) lp →
        (adaptiveRun values start bottom_n lp gf mw (fuel + 1) wl).2 =
          some (some (meanBottom (windowAt values start wl) bottom_n))) ∧
    adaptive_min_average [10, 1, 2, 9, 8, 0, 3] 0 3 2 50 (3/2) none 1 =
      some (some (3/2)) := by
  constructor
  · intro values start bottom_n lp gf mw wl fuel hs hw hcnt
    have he : ¬ (min values.length (start + wl) ≤ start) := by omega
    have hstep : loopStep values start bottom_n lp gf mw wl =
        Sum.inl (some (meanBottom (windowAt values start wl) bottom_n)) := by
      unfold loopStep
      rw [if_neg he, if_pos hcnt]
    simp only [adaptiveRun, hstep]
  · with_unfolding_all decide

/-- Witness for C4 at a concrete input. -/
theorem c4_enough_low_points_witness :
    (adaptiveRun [10, 1, 2, 9, 8, 0, 3] 0 2 50 (3/2) 12 (0 + 1) 3).2 =
      some (some (meanBottom (windowAt [10, 1, 2, 9, 8, 0, 3] 0 3) 2)) :=
  c4_enough_low_points_returns_mean.1 [10, 1, 2, 9, 8, 0, 3] 0 2 50 (3/2) 12 3 0
    (by decide) (by decide) (by with_unfolding_all decide)

/-! ### Termination of the adaptive scan (C1) -/

/-- With `values = [0,10,10,10,10,10]`, `start = 0`, `bottom_n = 2`,
`low_percentile = 5`, `growth_factor = 3/2`, `max_window = 4`, window
length 4 is a fixed point of the loop that never returns: the very-low
count stays at 1, growth is capped at `max_window = 4`, and the array end
(6) is beyond the window end, so neither fallback fires. -/
theorem adaptiveRun_stuck_at_four :
    ∀ fuel, (adaptiveRun [0, 10, 10, 10, 10, 10] 0 2 5 (3/2) 4 fuel 4).2 = none := by
  intro fuel
  induction fuel with
  | zero => rfl
  | succ k ih =>
    have hstep : loopStep [0, 10, 10, 10, 10, 10] 0 2 5 (3/2) 4 4 = Sum.inr 4 := by
      with_unfolding_all decide
    simp only [adaptiveRun, hstep]
    exact ih

/-- C1: `adaptive_min_average` does NOT always terminate under
`base_window ≥ 1`, `bottom_n ≥ 1`, `growth_factor > 1`: with
`values = [0,10,10,10,10,10]`, `start_index = 0`, `base_window = 1`,
`bottom_n = 2`, `low_percentile = 5`, `growth_factor = 3/2` and the
default `max_window` (= 4), the loop never returns — the fuel-indexed
model yields no result at every fuel.  This contradicts the claim (and
the source's own docstring, which presents `max_window` as a safety cap
ending the growth). -/
theorem c1_adaptive_min_average_diverges (fuel : ℕ) :
    adaptive_min_average [0, 10, 10, 10, 10, 10] 0 1 2 5 (3/2) none fuel = none := by
  have h3 : ∀ f, (adaptiveRun [0, 10, 10, 10, 10, 10] 0 2 5 (3/2) 4 f 3).2 = none := by
    intro f
    cases f with
    | zero => rfl
    | succ k =>
      have hstep : loopStep [0, 10, 10, 10, 10, 10] 0 2 5 (3/2) 4 3 = Sum.inr 4 := by
        with_unfolding_all decide
      simp only [adaptiveRun, hstep]
      exact adaptiveRun_stuck_at_four k
  have h2 : ∀ f, (adaptiveRun [0, 10, 10, 10, 10, 10] 0 2 5 (3/2) 4 f 2).2 = none := by
    intro f
    cases f with
    | zero => rfl
    | succ k =>
      have hstep : loopStep [0, 10, 10, 10, 10, 10] 0 2 5 (3/2) 4 2 = Sum.inr 3 := by
        with_unfolding_all decide
      simp only [adaptiveRun, hstep]
      exact h3 k
  have h1 : ∀ f, (adaptiveRun [0, 10, 10, 10, 10, 10] 0 2 5 (3/2) 4 f 1).2 = none := by
    intro f
    cases f with
    | zero => rfl
    | succ k =>
      have hstep : loopStep [0, 10, 10, 10, 10, 10] 0 2 5 (3/2) 4 1 = Sum.inr 2 := by
        with_unfolding_all decide
      simp only [adaptiveRun, hstep]
      exact h2 k
  unfold adaptive_min_average
  rw [if_neg (by simp)]
  exact h1 fuel

/-! ### Calibration lemmas -/

/-- If no segment contains `freq`, the scan finds nothing. -/
theorem findSegVal_none (freq : ℚ) (segs : List Seg)
    (h : ∀ s ∈ segs, ¬ (s.f_low ≤ freq ∧ freq ≤ s.f_high)) :
    findSegVal freq segs = none := by
  induction segs with
  | nil => rfl
  | cons a t ih =>
    have ha := h a (List.mem_cons_self a t)
    simp only [findSegVal, if_neg ha]
    exact ih (fun s hs => h s (List.mem_cons_of_mem a hs))

/-- If the scan finds a containing segment, the function returns its
interpolated value. -/
theorem calibrate_of_find (freq : ℚ) (segs : List Seg) (p : ℚ)
    (h : findSegVal freq segs = some p) :
    calibrate_frequency_to_pressure freq segs = CalibResult.val p := by
  unfold calibrate_frequency_to_pressure
  rw [h]

/-- Interpolation at the left endpoint gives `p_at_low`. -/
theorem interpSeg_at_f_low (s : Seg) : interpSeg s s.f_low = s.p_at_low := by
  unfold interpSeg
  split
  · rfl
  · simp

/-- Interpolation at the right endpoint of a non-degenerate segment
gives `p_at_high`. -/
theorem interpSeg_at_f_high (s : Seg) (h : s.f_low < s.f_high) :
    interpSeg s s.f_high = s.p_at_high := by
  have hne : s.f_high - s.f_low ≠ 0 := sub_ne_zero.mpr (ne_of_gt h)
  unfold interpSeg
  rw [if_neg (ne_of_gt h), div_self hne]
  ring

/-- In a sorted table with disjoint interiors, non-degenerate segments and
matching pressures at shared boundaries, the scan at a segment's `f_low`
yields that segment's `p_at_low`. -/
theorem find_at_f_low (segs : List Seg)
    (hp : List.Pairwise (fun a b => a.f_high ≤ b.f_low ∧
      (a.f_high = b.f_low → a.p_at_high = b.p_at_low)) segs)
    (hlt : ∀ s ∈ segs, s.f_low < s.f_high) :
    ∀ s ∈ segs, findSegVal s.f_low segs = some s.p_at_low := by
  induction segs with
  | nil => intro s hs; cases hs
  | cons a t ih =>
    rw [List.pairwise_cons] at hp
    obtain ⟨ha, hp2⟩ := hp
    intro s hs
    rcases List.mem_cons.mp hs with rfl | hs2
    · have hc : s.f_low ≤ s.f_low ∧ s.f_low ≤ s.f_high :=
        ⟨le_refl _, le_of_lt (hlt s (List.mem_cons_self s t))⟩
      simp only [findSegVal, if_pos hc]
      rw [interpSeg_at_f_low]
    · have hrel := ha s hs2
      rcases lt_or_eq_of_le hrel.1 with hlt2 | heq
      · have hna : ¬ (a.f_low ≤ s.f_low ∧ s.f_low ≤ a.f_high) :=
          fun hc => absurd hc.2 (not_le.mpr hlt2)
        simp only [findSegVal, if_neg hna]
        exact ih hp2 (fun x hx => hlt x (List.mem_cons_of_mem a hx)) s hs2
      · have hax : a.f_low ≤ s.f_low ∧ s.f_low ≤ a.f_high :=
          ⟨heq ▸ le_of_lt (hlt a (List.mem_cons_self a t)), le_of_eq heq.symm⟩
        simp only [findSegVal, if_pos hax]
        have h1 : interpSeg a s.f_low = a.p_at_high := by
          rw [← heq]
          exact interpSeg_at_f_high a (hlt a (List.mem_cons_self a t))
        rw [h1, hrel.2 heq]

/-- In a sorted table with disjoint interiors and non-degenerate
segments, the scan at a segment's `f_high` yields that segment's
`p_at_high`. -/
theorem find_at_f_high (segs : List Seg)
    (hp : List.Pairwise (fun a b => a.f_high ≤ b.f_low) segs)
    (hlt : ∀ s ∈ segs, s.f_low < s.f_high) :
    ∀ s ∈ segs, findSegVal s.f_high segs = some s.p_at_high := by
  induction segs with
  | nil => intro s hs; cases hs
  | cons a t ih =>
    rw [List.pairwise_cons] at hp
    obtain ⟨ha, hp2⟩ := hp
    intro s hs
    rcases List.mem_cons.mp hs with rfl | hs2
    · have hc : s.f_low ≤ s.f_high ∧ s.f_high ≤ s.f_high :=
        ⟨le_of_lt (hlt s (List.mem_cons_self s t)), le_refl _⟩
      simp only [findSegVal, if_pos hc]
      rw [interpSeg_at_f_high s (hlt s (List.mem_cons_self s t))]
    · have hgt : a.f_high < s.f_high :=
        lt_of_le_of_lt (ha s hs2) (hlt s (List.mem_cons_of_mem a hs2))
      have hna : ¬ (a.f_low ≤ s.f_high ∧ s.f_high ≤ a.f_high) :=
        fun hc => absurd hc.2 (not_le.mpr hgt)
      simp only [findSegVal, if_neg hna]
      exact ih hp2 (fun x hx => hlt x (List.mem_cons_of_mem a hx)) s hs2

/-! ### Round-trip through segment boundaries (C5) -/

/-- C5 counterexample: a table sorted ascending by `f_low` whose segments
do not overlap (they only share the boundary frequency 1, as the
contiguous tables of the source do) on which the round trip fails: the
second segment has `f_low = 1` and `p_at_low = 100`, but the scan hits
the first segment and interpolates to 7. -/
theorem c5_roundtrip_counterexample :
    List.Pairwise (fun a b : Seg => a.f_low < b.f_low)
      [⟨0, 1, 5, 7⟩, ⟨1, 2, 100, 200⟩] ∧
    List.Pairwise (fun a b : Seg => a.f_high ≤ b.f_low)
      [⟨0, 1, 5, 7⟩, ⟨1, 2, 100, 200⟩] ∧
    (∀ s ∈ [(⟨0, 1, 5, 7⟩ : Seg), ⟨1, 2, 100, 200⟩], s.f_low < s.f_high) ∧
    (⟨1, 2, 100, 200⟩ : Seg) ∈ [(⟨0, 1, 5, 7⟩ : Seg), ⟨1, 2, 100, 200⟩] ∧
    calibrate_frequency_to_pressure (Seg.f_low ⟨1, 2, 100, 200⟩)
      [⟨0, 1, 5, 7⟩, ⟨1, 2, 100, 200⟩] = CalibResult.val 7 ∧
    CalibResult.val 7 ≠ CalibResult.val (Seg.p_at_low ⟨1, 2, 100, 200⟩) := by
  with_unfolding_all decide

/-- C5 amended: for every table sorted ascending by `f_low` with
non-overlapping segment interiors, provided each segment is
non-degenerate and segments sharing a boundary frequency assign it the
same pressure, the mapper sends each segment's `f_low` to its `p_at_low`
and its `f_high` to its `p_at_high`. -/
theorem c5_roundtrip_amended (segs : List Seg)
    (hp : List.Pairwise (fun a b => a.f_high ≤ b.f_low ∧
      (a.f_high = b.f_low → a.p_at_high = b.p_at_low)) segs)
    (hlt : ∀ s ∈ segs, s.f_low < s.f_high) :
    ∀ s ∈ segs,
      calibrate_frequency_to_pressure s.f_low segs = CalibResult.val s.p_at_low ∧
      calibrate_frequency_to_pressure s.f_high segs = CalibResult.val s.p_at_high :=
  fun s hs =>
    ⟨calibrate_of_find _ _ _ (find_at_f_low segs hp hlt s hs),
     calibrate_of_find _ _ _
       (find_at_f_high segs (List.Pairwise.imp (fun h => h.1) hp) hlt s hs)⟩

/-- Witness for C5 (amended) on a concrete continuous two-segment table. -/
theorem c5_roundtrip_witness :
    calibrate_frequency_to_pressure (Seg.f_low ⟨1, 2, 7, 9⟩)
      [⟨0, 1, 5, 7⟩, ⟨1, 2, 7, 9⟩] = CalibResult.val (Seg.p_at_low ⟨1, 2, 7, 9⟩) ∧
    calibrate_frequency_to_pressure (Seg.f_high ⟨1, 2, 7, 9⟩)
      [⟨0, 1, 5, 7⟩, ⟨1, 2, 7, 9⟩] = CalibResult.val (Seg.p_at_high ⟨1, 2, 7, 9⟩) :=
  c5_roundtrip_amended [⟨0, 1, 5, 7⟩, ⟨1, 2, 7, 9⟩]
    (by with_unfolding_all decide) (by with_unfolding_all decide)
    ⟨1, 2, 7, 9⟩ (by with_unfolding_all decide)

/-! ### Extrapolation above the table (C6) -/

/-- In a sorted table with disjoint interiors, every segment's `f_high`
is at most the last segment's `f_high`. -/
theorem f_high_le_getLast (l : List Seg) (h : l ≠ [])
    (hp : List.Pairwise (fun a b => a.f_high ≤ b.f_low) l)
    (hwd : ∀ s ∈ l, s.f_low ≤ s.f_high) :
    ∀ s ∈ l, s.f_high ≤ (l.getLast h).f_high := by
  induction l with
  | nil => exact absurd rfl h
  | cons a t ih =>
    cases t with
    | nil =>
      intro s hs
      rcases List.mem_cons.mp hs with rfl | hs2
      · simp [List.getLast]
      · cases hs2
    | cons b t2 =>
      rw [List.pairwise_cons] at hp
      obtain ⟨ha, hp2⟩ := hp
      have hlast : (a :: b :: t2).getLast h =
          (b :: t2).getLast (List.cons_ne_nil b t2) := List.getLast_cons _
      intro s hs
      rw [hlast]
      rcases List.mem_cons.mp hs with rfl | hs2
      · have hmem := List.getLast_mem (List.cons_ne_nil b t2)
        exact le_trans (ha _ hmem) (hwd _ (List.mem_cons_of_mem s hmem))
      · exact ih (List.cons_ne_nil b t2) hp2
          (fun x hx => hwd x (List.mem_cons_of_mem a hx)) s hs2

/-- C6: for a non-empty sorted table with non-overlapping interiors, if
`freq` is strictly above every segment's `f_high`, the result is linear
extrapolation from the last segment — which indeed carries the highest
`f_high` — as `p_at_high + (freq - f_high) * slope`. -/
theorem c6_extrapolate_above (s0 : Seg) (rest : List Seg) (freq : ℚ)
    (hp : List.Pairwise (fun a b => a.f_high ≤ b.f_low) (s0 :: rest))
    (hwd : ∀ s ∈ s0 :: rest, s.f_low ≤ s.f_high)
    (habove : ∀ s ∈ s0 :: rest, s.f_high < freq) :
    calibrate_frequency_to_pressure freq (s0 :: rest) =
      CalibResult.val ((lastSeg s0 rest).p_at_high +
        (freq - (lastSeg s0 rest).f_high) * slopeOf (lastSeg s0 rest)) ∧
    ∀ s ∈ s0 :: rest, s.f_high ≤ (lastSeg s0 rest).f_high := by
  have hfind : findSegVal freq (s0 :: rest) = none :=
    findSegVal_none freq (s0 :: rest)
      (fun s hs hc => absurd hc.2 (not_le.mpr (habove s hs)))
  constructor
  · have hhi : (lastSeg s0 rest).f_high < freq :=
      habove _ (List.getLast_mem (List.cons_ne_nil s0 rest))
    simp only [calibrate_frequency_to_pressure, hfind]
    rw [if_pos hhi]
  · exact f_high_le_getLast (s0 :: rest) (List.cons_ne_nil s0 rest) hp hwd

/-- Witness for C6 on a concrete table. -/
theorem c6_extrapolate_above_witness :
    calibrate_frequency_to_pressure 5 [⟨0, 1, 5, 7⟩, ⟨2, 3, 8, 10⟩] =
      CalibResult.val ((lastSeg ⟨0, 1, 5, 7⟩ [⟨2, 3, 8, 10⟩]).p_at_high +
        (5 - (lastSeg ⟨0, 1, 5, 7⟩ [⟨2, 3, 8, 10⟩]).f_high) *
          slopeOf (lastSeg ⟨0, 1, 5, 7⟩ [⟨2, 3, 8, 10⟩])) ∧
    ∀ s ∈ [(⟨0, 1, 5, 7⟩ : Seg), ⟨2, 3, 8, 10⟩],
      s.f_high ≤ (lastSeg ⟨0, 1, 5, 7⟩ [⟨2, 3, 8, 10⟩]).f_high :=
  c6_extrapolate_above ⟨0, 1, 5, 7⟩ [⟨2, 3, 8, 10⟩] 5
    (by with_unfolding_all decide) (by with_unfolding_all decide)
    (by with_unfolding_all decide)

/-! ### Overlapping segments: first match wins (C9) -/

/-- The scan skips a prefix containing no match. -/
theorem findSegVal_append (freq : ℚ) (l1 l2 : List Seg)
    (h : ∀ t ∈ l1, ¬ (t.f_low ≤ freq ∧ freq ≤ t.f_high)) :
    findSegVal freq (l1 ++ l2) = findSegVal freq l2 := by
  induction l1 with
  | nil => rfl
  | cons a t ih =>
    have ha := h a (List.mem_cons_self a t)
    simp only [List.cons_append, findSegVal, if_neg ha]
    exact ih (fun x hx => h x (List.mem_cons_of_mem a hx))

/-- C9: when several segments contain `freq`, the result is the linear
interpolation of the first containing segment in list order; every later
matching segment is ignored. -/
theorem c9_first_match_wins (freq : ℚ) (l1 : List Seg) (s : Seg) (l2 : List Seg)
    (h1 : ∀ t ∈ l1, ¬ (t.f_low ≤ freq ∧ freq ≤ t.f_high))
    (h2 : s.f_low ≤ freq) (h3 : freq ≤ s.f_high) :
    calibrate_frequency_to_pressure freq (l1 ++ s :: l2) =
      CalibResult.val (interpSeg s freq) := by
  apply calibrate_of_find
  rw [findSegVal_append freq l1 (s :: l2) h1]
  simp only [findSegVal, if_pos (And.intro h2 h3)]

/-- Witness for C9: two overlapping segments both contain 3; the first
one (in list order) decides the value. -/
theorem c9_first_match_wins_witness :
    calibrate_frequency_to_pressure 3
      ([⟨0, 1, 5, 6⟩] ++ (⟨2, 4, 10, 20⟩ : Seg) :: [⟨2, 4, 100, 200⟩]) =
      CalibResult.val (interpSeg ⟨2, 4, 10, 20⟩ 3) :=
  c9_first_match_wins 3 [⟨0, 1, 5, 6⟩] ⟨2, 4, 10, 20⟩ [⟨2, 4, 100, 200⟩]
    (by with_unfolding_all decide) (by with_unfolding_all decide)
    (by with_unfolding_all decide)

/-! ### Gaps inside the table give NaN (C10) -/

/-- C10: for a non-empty table, when no segment contains `freq` but
`freq` is neither above the last segment's `f_high` nor below the first
segment's `f_low`, the function falls through to `np.nan`. -/
theorem c10_gap_returns_nan (s0 : Seg) (rest : List Seg) (freq : ℚ)
    (h1 : ∀ s ∈ s0 :: rest, ¬ (s.f_low ≤ freq ∧ freq ≤ s.f_high))
    (h2 : freq ≤ (lastSeg s0 rest).f_high)
    (h3 : s0.f_low ≤ freq) :
    calibrate_frequency_to_pressure freq (s0 :: rest) = CalibResult.nan := by
  have hfind := findSegVal_none freq (s0 :: rest) h1
  simp only [calibrate_frequency_to_pressure, hfind]
  rw [if_neg (not_lt.mpr h2), if_neg (not_lt.mpr h3)]

/-- Witness for C10: 3/2 falls in the gap between `[0,1]` and `[2,3]`. -/
theorem c10_gap_returns_nan_witness :
    calibrate_frequency_to_pressure (3/2) [⟨0, 1, 5, 7⟩, ⟨2, 3, 8, 9⟩] =
      CalibResult.nan :=
  c10_gap_returns_nan ⟨0, 1, 5, 7⟩ [⟨2, 3, 8, 9⟩] (3/2)
    (by with_unfolding_all decide) (by with_unfolding_all decide)
    (by with_unfolding_all decide)

/-! ### Supporting lemmas for the adaptive loop -/

/-- The window is as long as the slice bounds dictate. -/
theorem windowAt_length (values : List ℚ) (start wl : ℕ) :
    (windowAt values start wl).length = min values.length (start + wl) - start := by
  simp only [windowAt, List.length_take, List.length_drop]
  omega

/-- The grown window length is positive when the factor is positive. -/
theorem nextLen_pos (gf : ℚ) (wl : ℕ) (hgf : 0 < gf) (hwl : 1 ≤ wl) :
    1 ≤ nextLen gf wl := by
  have hw0 : (0 : ℚ) < (wl : ℚ) := by exact_mod_cast hwl
  have h1 : (0 : ℚ) < (wl : ℚ) * gf := mul_pos hw0 hgf
  have h2 : 0 < Int.ceil ((wl : ℚ) * gf) := Int.ceil_pos.mpr h1
  simp only [nextLen]
  split
  · omega
  · omega

/-- A returning loop iteration with a non-empty window and positive
`bottom_n` never returns Python `None`. -/
theorem loopStep_inl_some (values : List ℚ) (start bottom_n : ℕ) (lp gf : ℚ)
    (mw wl : ℕ) (r : Option ℚ)
    (hbn : 1 ≤ bottom_n) (hs : start < values.length) (hwl : 1 ≤ wl)
    (h : loopStep values start bottom_n lp gf mw wl = Sum.inl r) :
    ∃ v, r = some v := by
  have hc1 : ¬ (min values.length (start + wl) ≤ start) := by omega
  have hwlen : 1 ≤ (windowAt values start wl).length := by
    rw [windowAt_length]; omega
  have hfb : ∃ v, fallbackMean (windowAt values start wl) bottom_n = some v := by
    unfold fallbackMean
    rw [if_neg (by omega)]
    exact ⟨_, rfl⟩
  unfold loopStep at h
  rw [if_neg hc1] at h
  by_cases h2 : bottom_n ≤ countVeryLow (windowAt values start wl) lp
  · rw [if_pos h2] at h
    exact ⟨_, (Sum.inl.inj h).symm⟩
  · rw [if_neg h2] at h
    by_cases h3 : mw < nextLen gf wl ∧ values.length ≤ start + wl
    · rw [if_pos h3] at h
      obtain ⟨v, hv⟩ := hfb
      exact ⟨v, by rw [← Sum.inl.inj h, hv]⟩
    · rw [if_neg h3] at h
      by_cases h4 : values.length ≤ start + min (nextLen gf wl) mw ∧
          min values.length (start + wl) = values.length
      · rw [if_pos h4] at h
        obtain ⟨v, hv⟩ := hfb
        exact ⟨v, by rw [← Sum.inl.inj h, hv]⟩
      · rw [if_neg h4] at h
        exact Sum.noConfusion h

/-- A continuing loop iteration continues with `min (nextLen gf wl) mw`. -/
theorem loopStep_inr_eq (values : List ℚ) (start bottom_n : ℕ) (lp gf : ℚ)
    (mw wl wl2 : ℕ)
    (h : loopStep values start bottom_n lp gf mw wl = Sum.inr wl2) :
    wl2 = min (nextLen gf wl) mw := by
  unfold loopStep at h
  split at h
  · exact Sum.noConfusion h
  · split at h
    · exact Sum.noConfusion h
    · split at h
      · exact Sum.noConfusion h
      · split at h
        · exact Sum.noConfusion h
        · exact (Sum.inr.inj h).symm

/-- Under positive configuration, a scan that terminates never returns
Python `None` when the start index is inside the array. -/
theorem adaptiveRun_returns_some (values : List ℚ) (start bottom_n : ℕ)
    (lp gf : ℚ) (mw : ℕ)
    (hbn : 1 ≤ bottom_n) (hgf : 0 < gf) (hmw : 1 ≤ mw)
    (hs : start < values.length) :
    ∀ fuel wl r, 1 ≤ wl →
      (adaptiveRun values start bottom_n lp gf mw fuel wl).2 = some r →
      ∃ v, r = some v := by
  intro fuel
  induction fuel with
  | zero =>
    intro wl r _ h
    simp [adaptiveRun] at h
  | succ k ih =>
    intro wl r hwl h
    cases hstep : loopStep values start bottom_n lp gf mw wl with
    | inl r2 =>
      simp only [adaptiveRun, hstep] at h
      obtain rfl : r2 = r := Option.some.inj h
      exact loopStep_inl_some values start bottom_n lp gf mw wl _ hbn hs hwl hstep
    | inr wl2 =>
      simp only [adaptiveRun, hstep] at h
      have hwl2 : 1 ≤ wl2 := by
        rw [loopStep_inr_eq values start bottom_n lp gf mw wl wl2 hstep]
        have := nextLen_pos gf wl hgf hwl
        omega
      exact ih wl2 r hwl2 h

/-- The collection loop of `build_adaptive_series`: when it completes,
it produces exactly one value per scanned start index, in order. -/
theorem buildFrom_spec (values : List ℚ) (bw bottom_n : ℕ) (lp gf : ℚ)
    (mwo : Option ℕ) (fuel : ℕ)
    (hbw : 1 ≤ bw) (hbn : 1 ≤ bottom_n) (hgf : 0 < gf)
    (hmw : 1 ≤ mwo.getD (4 * bw)) :
    ∀ k i out, i + k ≤ values.length →
      buildFrom values bw bottom_n lp gf mwo fuel i k = some out →
      out.length = k ∧
      ∀ j, j < k →
        adaptive_min_average values (i + j) bw bottom_n lp gf mwo fuel =
          some (some (out.getD j 0)) := by
  intro k
  induction k with
  | zero =>
    intro i out _ h
    simp only [buildFrom] at h
    obtain rfl : ([] : List ℚ) = out := Option.some.inj h
    exact ⟨rfl, fun j hj => absurd hj (by omega)⟩
  | succ k ih =>
    intro i out hik h
    have hi : i < values.length := by omega
    cases hA : adaptive_min_average values i bw bottom_n lp gf mwo fuel with
    | none =>
      simp only [buildFrom, hA] at h
      exact Option.noConfusion h
    | some r =>
      have hr : ∃ v, r = some v := by
        unfold adaptive_min_average at hA
        rw [if_neg (by omega)] at hA
        exact adaptiveRun_returns_some values i bottom_n lp gf _ hbn hgf hmw hi
          fuel bw r hbw hA
      obtain ⟨v, rfl⟩ := hr
      cases hR : buildFrom values bw bottom_n lp gf mwo fuel (i + 1) k with
      | none =>
        simp only [buildFrom, hA, hR] at h
        exact Option.noConfusion h
      | some rest =>
        simp only [buildFrom, hA, hR] at h
        obtain rfl : v :: rest = out := Option.some.inj h
        obtain ⟨hlen, hall⟩ := ih (i + 1) rest (by omega) hR
        refine ⟨by simp [hlen], ?_⟩
        intro j hj
        cases j with
        | zero => simpa using hA
        | succ j2 =>
          have hj2 := hall j2 (by omega)
          have hidx : i + (j2 + 1) = i + 1 + j2 := by omega
          rw [hidx, List.getD_cons_succ]
          exact hj2

/-! ### Length of the adaptive series (C3) -/

/-- C3 counterexample: one sample, `base_window = 2`.  The claimed length
`max(0, N - base_window + 1)` is 0, but the code scans start index 0
(since the loop runs to `max(0, N - base_window)` inclusive) and emits one
value, so the series has length 1. -/
theorem c3_length_counterexample :
    (build_adaptive_series [5] 2 1 50 (3/2) none 1).map List.length = some 1 ∧
    max (0 : ℤ) (1 - 2 + 1) = 0 := by
  with_unfolding_all decide

/-- C3 amended: with `base_window ≥ 1`, `bottom_n ≥ 1`, positive growth
factor and positive effective `max_window`, whenever the series
computation completes, its length is `max(0, N - base_window) + 1` for
`N ≥ 1` (i.e. one element per scanned start index, in start-index order)
and 0 for `N = 0` — not `max(0, N - base_window + 1)`. -/
theorem c3_series_length (values : List ℚ) (bw bottom_n : ℕ) (lp gf : ℚ)
    (mwo : Option ℕ) (fuel : ℕ) (out : List ℚ)
    (hbw : 1 ≤ bw) (hbn : 1 ≤ bottom_n) (hgf : 0 < gf)
    (hmw : 1 ≤ mwo.getD (4 * bw))
    (h : build_adaptive_series values bw bottom_n lp gf mwo fuel = some out) :
    out.length = (if values.length = 0 then 0 else values.length - bw + 1) ∧
    (values.length ≠ 0 → ∀ j, j ≤ values.length - bw →
      adaptive_min_average values j bw bottom_n lp gf mwo fuel =
        some (some (out.getD j 0))) := by
  by_cases hn : values.length = 0
  · have hval : values = [] := List.length_eq_zero.mp hn
    subst hval
    have h0 : adaptive_min_average [] 0 bw bottom_n lp gf mwo fuel = some none := by
      unfold adaptive_min_average
      simp
    have hb : build_adaptive_series [] bw bottom_n lp gf mwo fuel = some [] := by
      unfold build_adaptive_series
      have hk : (([] : List ℚ).length - bw) + 1 = 1 := by simp
      rw [hk]
      simp only [buildFrom, h0]
    rw [hb] at h
    obtain rfl : ([] : List ℚ) = out := Option.some.inj h
    exact ⟨by simp, fun hc => absurd rfl hc⟩
  · unfold build_adaptive_series at h
    obtain ⟨hlen, hall⟩ := buildFrom_spec values bw bottom_n lp gf mwo fuel
      hbw hbn hgf hmw ((values.length - bw) + 1) 0 out (by omega) h
    refine ⟨by rw [hlen, if_neg hn], ?_⟩
    intro _ j hj
    have hjv := hall j (by omega)
    simpa using hjv

/-- Witness for C3 (amended) at a concrete input. -/
theorem c3_series_length_witness :
    ([(1 : ℚ), 2]).length =
      (if ([(1 : ℚ), 2, 3]).length = 0 then 0 else ([(1 : ℚ), 2, 3]).length - 2 + 1) :=
  (c3_series_length [1, 2, 3] 2 1 50 (3/2) none 1 [1, 2] (by decide) (by decide)
    (by with_unfolding_all decide) (by decide) (by with_unfolding_all decide)).1

/-! ### Window growth is monotone and capped (C7) -/

/-- A continuing iteration grows the window length monotonically and
keeps it within `max_window`, provided it started within `max_window`
and the growth factor exceeds 1. -/
theorem loopStep_inr_bounds (values : List ℚ) (start bottom_n : ℕ) (lp gf : ℚ)
    (mw wl wl2 : ℕ) (hgf : 1 < gf) (hwl : 1 ≤ wl) (hwm : wl ≤ mw)
    (h : loopStep values start bottom_n lp gf mw wl = Sum.inr wl2) :
    wl ≤ wl2 ∧ wl2 ≤ mw ∧ 1 ≤ wl2 := by
  have heq := loopStep_inr_eq values start bottom_n lp gf mw wl wl2 h
  have hnl : wl + 1 ≤ nextLen gf wl := by
    have hw0 : (0 : ℚ) < (wl : ℚ) := by
      have : (0 : ℕ) < wl := hwl
      exact_mod_cast this
    have h1 : (wl : ℚ) < (wl : ℚ) * gf := by nlinarith
    have h2 : (wl : ℤ) < Int.ceil ((wl : ℚ) * gf) := by
      rw [Int.lt_ceil]
      exact_mod_cast h1
    simp only [nextLen]
    split
    · omega
    · omega
  omega

/-- The window-length trace of a started loop begins with the starting
window length. -/
theorem wlTrace_head (values : List ℚ) (start bottom_n : ℕ) (lp gf : ℚ)
    (mw f wl : ℕ) :
    (wlTrace values start bottom_n lp gf mw (f + 1) wl).head? = some wl := by
  cases hstep : loopStep values start bottom_n lp gf mw wl with
  | inl r => simp [wlTrace, adaptiveRun, hstep]
  | inr wl2 => simp [wlTrace, adaptiveRun, hstep]

/-- Invariant form of C7: from any window length within the cap, the
window-length trace is non-decreasing and bounded by `max_window`. -/
theorem wlTrace_invariant (values : List ℚ) (start bottom_n : ℕ) (lp gf : ℚ)
    (mw : ℕ) (hgf : 1 < gf) :
    ∀ fuel wl, 1 ≤ wl → wl ≤ mw →
      List.Chain' (fun a b => a ≤ b)
        (wlTrace values start bottom_n lp gf mw fuel wl) ∧
      ∀ x ∈ wlTrace values start bottom_n lp gf mw fuel wl, x ≤ mw := by
  intro fuel
  induction fuel with
  | zero =>
    intro wl _ _
    exact ⟨by simp [wlTrace, adaptiveRun], by simp [wlTrace, adaptiveRun]⟩
  | succ k ih =>
    intro wl hwl hwm
    cases hstep : loopStep values start bottom_n lp gf mw wl with
    | inl r =>
      constructor
      · simp [wlTrace, adaptiveRun, hstep]
      · intro x hx
        simp [wlTrace, adaptiveRun, hstep] at hx
        subst hx
        exact hwm
    | inr wl2 =>
      obtain ⟨hle, hle2, hwl2⟩ :=
        loopStep_inr_bounds values start bottom_n lp gf mw wl wl2 hgf hwl hwm hstep
      obtain ⟨hch, hbd⟩ := ih wl2 hwl2 hle2
      constructor
      · simp only [wlTrace, adaptiveRun, hstep]
        rw [List.chain'_cons']
        constructor
        · intro y hy
          cases k with
          | zero => simp [adaptiveRun] at hy
          | succ k2 =>
            have hh := wlTrace_head values start bottom_n lp gf mw k2 wl2
            simp only [wlTrace] at hh
            rw [hh] at hy
            obtain rfl : wl2 = y := by simpa using hy
            exact hle
        · simpa only [wlTrace] using hch
      · intro x hx
        simp only [wlTrace, adaptiveRun, hstep] at hx
        rcases List.mem_cons.mp hx with rfl | hx2
        · exact hwm
        · exact hbd x (by simpa only [wlTrace] using hx2)

/-- C7 counterexample: for `base_window = 2` and explicit
`max_window = 1`, the first iteration of the loop of
`adaptive_min_average` already uses window length 2, which exceeds
`max_window` — the claimed bound fails. -/
theorem c7_window_bound_counterexample :
    2 ∈ wlTrace [0, 0, 0] 0 1 50 (3/2) 1 1 2 ∧ ¬ (2 ≤ 1) := by
  with_unfolding_all decide

/-- C7 amended: for a fixed start index, with `growth_factor > 1` and
`base_window ≤ max_window` (which always holds for the default
`max_window = 4 * base_window`), the sequence of window lengths used by
the scan loop is monotonically non-decreasing and every entry is at most
`max_window`. -/
theorem c7_window_monotone_bounded (values : List ℚ)
    (start base_window bottom_n : ℕ) (lp gf : ℚ) (mw fuel : ℕ)
    (hgf : 1 < gf) (hbw : 1 ≤ base_window) (hbm : base_window ≤ mw) :
    List.Chain' (fun a b => a ≤ b)
      (wlTrace values start bottom_n lp gf mw fuel base_window) ∧
    ∀ x ∈ wlTrace values start bottom_n lp gf mw fuel base_window, x ≤ mw :=
  wlTrace_invariant values start bottom_n lp gf mw hgf fuel base_window hbw hbm

/-- Witness for C7 (amended) at a concrete input. -/
theorem c7_window_monotone_bounded_witness :
    List.Chain' (fun a b => a ≤ b) (wlTrace [0, 0, 0, 0] 0 1 50 (3/2) 8 3 2) ∧
    ∀ x ∈ wlTrace [0, 0, 0, 0] 0 1 50 (3/2) 8 3 2, x ≤ 8 :=
  c7_window_monotone_bounded [0, 0, 0, 0] 0 2 1 50 (3/2) 8 3
    (by with_unfolding_all decide) (by decide) (by decide)

end Frequency2IOP
